import Mathlib

/-!
Verification development for the `compact_path_tree` library.

The library builds a compact representation of a filesystem subtree: a
depth-first walk appends `Name`/`Up` components to a single path buffer,
consulting a caller-supplied visitor (`filter` / `visit` / `handle_error`),
and an iterator later replays the buffer against a cursor seeded at the
root, yielding every discovered path.

The embedding below models the filesystem as an inductive tree in which
every fallible operation (`read_dir`, the per-item results of the listing
iterator, `DirEntry::file_type`) carries its possible error, paths as a
flag for absoluteness plus a list of components, and the visitor as a
record of state-passing functions.  The builder additionally records an
event trace: each error surfacing from a source, each `handle_error`
invocation with its arguments and verdict, each `visit` call, and each
name pushed onto the buffer.  The trace models exactly the calls the Rust
code makes and does not influence the computed buffer, state or error.
-/

namespace CPT

/-- The error kinds the model distinguishes: the default policy branches on
`PermissionDenied`, everything else is treated uniformly. -/
inductive ErrorKind where
  | permissionDenied
  | notFound
  | other
deriving DecidableEq

/-- Model of `std::io::Error`: a kind plus a display message. -/
structure IoError where
  kind : ErrorKind
  msg : String
deriving DecidableEq

/-- Model of `std::fs::FileType` as returned by `DirEntry::file_type`
(symlinks are not followed, so a symlink to a directory is `symlink`). -/
inductive FileType where
  | file
  | dir
  | symlink
  | other
deriving DecidableEq

/-- Model of `PathBuf` / `Path` at the granularity the library uses: an
absoluteness flag plus the list of normal components.  `push` appends a
component, `pop` drops the last one (a no-op on an empty component list,
as `PathBuf::pop` is). -/
structure PathM where
  absolute : Bool
  comps : List String
deriving DecidableEq

def PathM.push (p : PathM) (s : String) : PathM :=
  ⟨p.absolute, p.comps ++ [s]⟩

def PathM.pop (p : PathM) : PathM :=
  ⟨p.absolute, p.comps.dropLast⟩

def PathM.display (p : PathM) : String :=
  (if p.absolute then "/" else "") ++ String.intercalate "/" p.comps

mutual
/-- The filesystem model.  An `Entry` is one filesystem object: its name,
the (fallible) result of querying its type, and — used only when the type
is `dir` — its directory listing. -/
inductive Entry : Type where
  | mk (name : String) (ftype : Except IoError FileType) (listing : Listing)

/-- Model of `read_dir`: either the open itself fails, or it yields a
sequence of items, exactly as Rust's `ReadDir` yields
`io::Result<DirEntry>` values. -/
inductive Listing : Type where
  | fail (e : IoError)
  | ok (items : Items)

inductive Items : Type where
  | nil
  | cons (head : Item) (tail : Items)

inductive Item : Type where
  | fail (e : IoError)
  | good (entry : Entry)
end

def Entry.name : Entry → String
  | .mk n _ _ => n

def Entry.ftype : Entry → Except IoError FileType
  | .mk _ t _ => t

def Entry.listing : Entry → Listing
  | .mk _ _ l => l

/-- One component of the encoded buffer: a filesystem name, or the
reserved `Up` marker (`Component::ParentDir`). -/
inductive Comp where
  | name (s : String)
  | up
deriving DecidableEq

/-- Where an error surfaced from. -/
inductive Source where
  | listingOpen
  | itemFail
  | filterStep
  | visitStep
  | ftypeStep
deriving DecidableEq

/-- Instrumentation events recorded by the builder: `raised e src` when an
error `e` surfaces from source `src`; `offered e dir entry verdict` for
each `handle_error` call; `visited p` for each `visit` call; `entered p`
each time a `Name` component is pushed for the entry at full path `p`. -/
inductive Event where
  | raised (e : IoError) (src : Source)
  | offered (e : IoError) (dir : PathM) (entry : Option (PathM × Entry)) (verdict : Option IoError)
  | visited (p : PathM)
  | entered (p : PathM)

/-- Model of a `PathVisitor` implementation with state `σ`.  Each method
receives the full path of the entry it concerns (Rust's `DirEntry` knows
its own path) together with the entry itself. -/
structure Visitor (σ : Type) where
  filter : σ → PathM → Entry → σ × Except IoError Bool
  visit : σ → PathM → Entry → σ × Except IoError Unit
  handleError : σ → IoError → PathM → Option (PathM × Entry) → σ × Option IoError

/-- Result of a builder call: the buffer and visitor state as left behind
(Rust mutates them in place even when returning an error), the event
trace, and the error, `none` meaning `Ok(())`. -/
structure BuildResult (σ : Type) where
  buf : List Comp
  st : σ
  events : List Event
  err : Option IoError

mutual
/-- `CompactPathTree::add_item`, embedded: filter, visit, query the type
(in that order, all before touching the buffer), push the `Name`, recurse
for directories, and append the `Up` marker last of all, even when the
recursion failed. -/
def add_item (V : Visitor σ) (dir : PathM) (buf : List Comp) (s : σ)
    (item : Entry) : BuildResult σ :=
  match item with
  | .mk nm ftype listing =>
    match V.filter s (dir.push nm) (.mk nm ftype listing) with
    | (s1, .error e) => ⟨buf, s1, [.raised e .filterStep], some e⟩
    | (s1, .ok false) => ⟨buf, s1, [], none⟩
    | (s1, .ok true) =>
      match V.visit s1 (dir.push nm) (.mk nm ftype listing) with
      | (s2, .error e) => ⟨buf, s2, [.visited (dir.push nm), .raised e .visitStep], some e⟩
      | (s2, .ok _) =>
        match ftype with
        | .error e => ⟨buf, s2, [.visited (dir.push nm), .raised e .ftypeStep], some e⟩
        | .ok t =>
          if t = FileType.dir then
            let r := build_tree V (dir.push nm) (buf ++ [Comp.name nm]) s2 listing
            ⟨r.buf ++ [Comp.up], r.st,
              [.visited (dir.push nm), .entered (dir.push nm)] ++ r.events, r.err⟩
          else
            ⟨buf ++ [Comp.name nm, Comp.up], s2,
              [.visited (dir.push nm), .entered (dir.push nm)], none⟩

/-- `CompactPathTree::build_tree`, embedded: `dir.read_dir()?` propagates
a listing-open failure directly, then the yielded items are processed. -/
def build_tree (V : Visitor σ) (dir : PathM) (buf : List Comp) (s : σ)
    (listing : Listing) : BuildResult σ :=
  match listing with
  | .fail e => ⟨buf, s, [.raised e .listingOpen], some e⟩
  | .ok items => build_items V dir buf s items

/-- The loop body of `build_tree`: a per-item iteration failure is routed
through `handle_error` with no entry, an `add_item` failure through
`handle_error` with the offending entry; a `none` verdict continues with
the remaining items, a `some` verdict returns it. -/
def build_items (V : Visitor σ) (dir : PathM) (buf : List Comp) (s : σ)
    (items : Items) : BuildResult σ :=
  match items with
  | .nil => ⟨buf, s, [], none⟩
  | .cons (.fail e) rest =>
    match V.handleError s e dir none with
    | (s1, none) =>
      let r := build_items V dir buf s1 rest
      ⟨r.buf, r.st, [.raised e .itemFail, .offered e dir none none] ++ r.events, r.err⟩
    | (s1, some e2) =>
      ⟨buf, s1, [.raised e .itemFail, .offered e dir none (some e2)], some e2⟩
  | .cons (.good entry) rest =>
    let r := add_item V dir buf s entry
    match r.err with
    | none =>
      let r2 := build_items V dir r.buf r.st rest
      ⟨r2.buf, r2.st, r.events ++ r2.events, r2.err⟩
    | some e =>
      match V.handleError r.st e dir (some (dir.push entry.name, entry)) with
      | (s1, none) =>
        let r2 := build_items V dir r.buf s1 rest
        ⟨r2.buf, r2.st,
          r.events ++ [.offered e dir (some (dir.push entry.name, entry)) none] ++ r2.events,
          r2.err⟩
      | (s1, some e2) =>
        ⟨r.buf, s1,
          r.events ++ [.offered e dir (some (dir.push entry.name, entry)) (some e2)],
          some e2⟩
end

/-- The immutable result of a successful build: the root path and the
encoded buffer. -/
structure CompactPathTree where
  root : PathM
  path : List Comp
deriving DecidableEq

/-- Result of `CompactPathTree::new`: the final visitor state, the event
trace, and either the tree or the fatal error. -/
structure NewResult (σ : Type) where
  st : σ
  events : List Event
  result : Except IoError CompactPathTree

/-- `CompactPathTree::new`, embedded: build from an empty buffer against
the root's listing; on success wrap the root and the buffer
(`shrink_to_fit` does not change the contents). -/
def CompactPathTree.new (root : PathM) (fs : Listing) (V : Visitor σ) (s : σ) :
    NewResult σ :=
  let r := build_tree V root [] s fs
  match r.err with
  | some e => ⟨r.st, r.events, .error e⟩
  | none => ⟨r.st, r.events, .ok ⟨root, r.buf⟩⟩

/-- `CompactPathTreeIter::next`, iterated to completion: scan the buffer
left to right; on `Up`, pop the cursor; on `Name`, push and yield a copy
of the cursor. -/
def decodeSteps (current : PathM) (cs : List Comp) : List PathM :=
  match cs with
  | [] => []
  | Comp.up :: rest => decodeSteps current.pop rest
  | Comp.name s :: rest => (current.push s) :: decodeSteps (current.push s) rest

/-- Cursor value after scanning a buffer (used to reason about
concatenated buffers). -/
def finalCursor (current : PathM) (cs : List Comp) : PathM :=
  match cs with
  | [] => current
  | Comp.up :: rest => finalCursor current.pop rest
  | Comp.name s :: rest => finalCursor (current.push s) rest

/-- `CompactPathTree::iter` / `IntoIterator for &CompactPathTree`: the
cursor starts at a clone of the root. -/
def CompactPathTree.iter (t : CompactPathTree) : List PathM :=
  decodeSteps t.root t.path

/-- Number of `Name` components in a buffer. -/
def namesCount : List Comp → Nat
  | [] => 0
  | Comp.name _ :: rest => namesCount rest + 1
  | Comp.up :: rest => namesCount rest

/-- Number of `Up` components in a buffer. -/
def upsCount : List Comp → Nat
  | [] => 0
  | Comp.name _ :: rest => upsCount rest
  | Comp.up :: rest => upsCount rest + 1

/-- The paths of the `entered` events of a trace, in order: one per
included entry, in discovery order. -/
def enteredList : List Event → List PathM
  | [] => []
  | Event.entered p :: rest => p :: enteredList rest
  | _ :: rest => enteredList rest

/-- The description string the default `handle_error` logs: the enclosing
directory when no entry is known, the entry's own path otherwise. -/
def describeTarget (dir : PathM) (ent : Option (PathM × Entry)) : String :=
  match ent with
  | none => "item in `" ++ dir.display ++ "`"
  | some (p, _) => "`" ++ p.display ++ "`"

/-- The default `PathVisitor` implementation: `filter` always includes,
`visit` does nothing, `handle_error` logs `PermissionDenied` errors (the
state collects the lines written to stderr) and classifies them non-fatal,
and classifies every other kind fatal. -/
def defaultVisitor : Visitor (List String) :=
  { filter := fun s _ _ => (s, .ok true)
    visit := fun s _ _ => (s, .ok ())
    handleError := fun s e dir ent =>
      match e.kind with
      | .permissionDenied =>
        (s ++ ["Permission denied reading " ++ describeTarget dir ent ++ ": " ++ e.msg], none)
      | _ => (s, some e) }

/-- An include-everything visitor that treats every error as fatal; used
for concrete scenarios where no error occurs. -/
def plainVisitor : Visitor Unit :=
  { filter := fun s _ _ => (s, .ok true)
    visit := fun s _ _ => (s, .ok ())
    handleError := fun s e _ _ => (s, some e) }

/-- The names of the entries a listing iterator actually yields (per-item
failures yield no entry). -/
def goodNames : Items → List String
  | .nil => []
  | .cons (.fail _) rest => goodNames rest
  | .cons (.good e) rest => e.name :: goodNames rest

def goodNamesL : Listing → List String
  | .fail _ => []
  | .ok items => goodNames items

/-- A buffer never ascends below its starting level: every prefix has at
least as many `Name` components as `Up` components. -/
def balancedAt (cs : List Comp) : Prop :=
  ∀ n, upsCount (List.take n cs) ≤ namesCount (List.take n cs)

/-- The buffer delta a builder call appends, together with everything the
claims need about it.  `DeltaSpec dir allowed evts d` says: `d` is
balanced (`Name`s and `Up`s pair up exactly, and no prefix has more `Up`s
than `Name`s); decoding `d` from cursor `dir` yields exactly the `entered`
paths of the trace `evts` and returns the cursor to `dir`; and every
entered path strictly extends `dir`, starting with one of the `allowed`
components.  This holds whether or not the call returned an error. -/
def DeltaSpec (dir : PathM) (allowed : List String) (evts : List Event)
    (d : List Comp) : Prop :=
  namesCount d = upsCount d ∧
  balancedAt d ∧
  decodeSteps dir d = enteredList evts ∧
  finalCursor dir d = dir ∧
  ∀ p ∈ enteredList evts,
    p.absolute = dir.absolute ∧ ∃ n suf, p.comps = dir.comps ++ n :: suf ∧ n ∈ allowed

/-- `e` was passed to some `handle_error` call of the trace. -/
def OfferedIn (evts : List Event) (e : IoError) : Prop :=
  ∃ d ent v, Event.offered e d ent v ∈ evts

/-- `e` was passed to some `handle_error` call with `entry = None`. -/
def OfferedNone (evts : List Event) (e : IoError) : Prop :=
  ∃ d v, Event.offered e d none v ∈ evts

/-- `e` was passed to some `handle_error` call with `entry = Some(..)`. -/
def OfferedSome (evts : List Event) (e : IoError) : Prop :=
  ∃ d pe v, Event.offered e d (some pe) v ∈ evts

/-- How an error raised from a given source is offered to `handle_error`:
a per-item listing failure with no entry, a subdirectory listing-open
failure as the failure of the directory's own entry, the rest with the
offending entry attached (which of the two shapes is not tracked for
filter / visit / type-query errors). -/
def srcOffered (evts : List Event) (e : IoError) : Source → Prop
  | .itemFail => OfferedNone evts e
  | .listingOpen => OfferedSome evts e
  | .filterStep => OfferedIn evts e
  | .visitStep => OfferedIn evts e
  | .ftypeStep => OfferedIn evts e

/-- `p` is a strict ancestor of `q`: same kind of path, and `q`'s
components strictly extend `p`'s. -/
def anc (p q : PathM) : Prop :=
  p.absolute = q.absolute ∧ ∃ suf, suf ≠ [] ∧ q.comps = p.comps ++ suf

/-- The visitor's `filter` excludes (with success) every entry named
`bad`, whatever the state and path. -/
def FiltersOut {σ : Type} (V : Visitor σ) (bad : String) : Prop :=
  ∀ s p ent, Entry.name ent = bad → ∃ s1, V.filter s p ent = (s1, .ok false)

/-- No string occurs twice. -/
def distinctB : List String → Bool
  | [] => true
  | n :: ns => (!ns.contains n) && distinctB ns

mutual
/-- Real directory listings never repeat a name; `nodupL` states that for
every listing of the modelled subtree. -/
def nodupL : Listing → Bool
  | .fail _ => true
  | .ok items => distinctB (goodNames items) && nodupItems items

def nodupItems : Items → Bool
  | .nil => true
  | .cons (.fail _) rest => nodupItems rest
  | .cons (.good e) rest => nodupE e && nodupItems rest

def nodupE : Entry → Bool
  | .mk _ _ l => nodupL l
end

/-- A policy whose `filter` excludes every entry named `.cache` and
includes everything else; errors are all fatal. -/
def cacheVisitor : Visitor Unit :=
  { filter := fun s _ ent => (s, .ok (ent.name != ".cache"))
    visit := fun s _ _ => (s, .ok ())
    handleError := fun s e _ _ => (s, some e) }

/-- A visitor whose `handle_error` classifies the first error it sees as
fatal and every later one as ignorable (the state counts the calls). -/
def countVisitor : Visitor Nat :=
  { filter := fun s _ _ => (s, .ok true)
    visit := fun s _ _ => (s, .ok ())
    handleError := fun s e _ _ => (s + 1, if s = 0 then some e else none) }

/-- A generic non-permission error. -/
def e0 : IoError := ⟨.other, "boom"⟩

/-- A permission-denied error. -/
def pdErr : IoError := ⟨.permissionDenied, "denied"⟩

/-- A concrete root path. -/
def rootX : PathM := ⟨true, ["r"]⟩

/-- Scenario B: the listing of directory `d`, containing just file `b`. -/
def dListing : Listing :=
  .ok (.cons (.good (Entry.mk "b" (.ok .file) (.ok .nil))) .nil)

/-- Scenario B: the root contains directory `d`, which contains file `b`. -/
def fsB : Listing :=
  .ok (.cons (.good (Entry.mk "d" (.ok .dir) dListing)) .nil)

/-- Scenario C: a file whose type query fails with permission denied. -/
def entryX : Entry := Entry.mk "x" (.error pdErr) (.ok .nil)

/-- Scenario C: the root contains `x` (type query fails with permission
denied) and the ordinary file `a`. -/
def fsC : Listing :=
  .ok (.cons (.good entryX) (.cons (.good (Entry.mk "a" (.ok .file) (.ok .nil))) .nil))

/-- A directory `d` whose listing iterator yields one failed item. -/
def entryD4 : Entry := Entry.mk "d" (.ok .dir) (.ok (.cons (.fail e0) .nil))

/-- The root's items: just `entryD4`. -/
def items4 : Items := .cons (.good entryD4) .nil

/-- The root contains only `entryD4`. -/
def fs4 : Listing := .ok items4

/-- A visitor whose `filter` always fails with `e0`. -/
def errVisitor : Visitor Unit :=
  { filter := fun s _ _ => (s, .error e0)
    visit := fun s _ _ => (s, .ok ())
    handleError := fun s e _ _ => (s, some e) }

/-- Scenario D: the root contains directory `sub` containing a `.cache`
directory (with a file `f` inside), and the file `keep`. -/
def fsCache : Listing :=
  .ok (.cons (.good (Entry.mk "sub" (.ok .dir)
      (.ok (.cons (.good (Entry.mk ".cache" (.ok .dir)
        (.ok (.cons (.good (Entry.mk "f" (.ok .file) (.ok .nil))) .nil)))) .nil))))
    (.cons (.good (Entry.mk "keep" (.ok .file) (.ok .nil))) .nil))

theorem namesCount_append (a b : List Comp) :
    namesCount (a ++ b) = namesCount a + namesCount b := by
  induction a with
  | nil => simp [namesCount]
  | cons c rest ih => cases c <;> simp [namesCount, ih] <;> omega

theorem upsCount_append (a b : List Comp) :
    upsCount (a ++ b) = upsCount a + upsCount b := by
  induction a with
  | nil => simp [upsCount]
  | cons c rest ih => cases c <;> simp [upsCount, ih] <;> omega

theorem length_eq_counts (cs : List Comp) :
    cs.length = namesCount cs + upsCount cs := by
  induction cs with
  | nil => simp [namesCount, upsCount]
  | cons c rest ih => cases c <;> simp [namesCount, upsCount, ih] <;> omega

theorem decodeSteps_append (a b : List Comp) (c : PathM) :
    decodeSteps c (a ++ b) = decodeSteps c a ++ decodeSteps (finalCursor c a) b := by
  induction a generalizing c with
  | nil => simp [decodeSteps, finalCursor]
  | cons hd tl ih => cases hd <;> simp [decodeSteps, finalCursor, ih]

theorem finalCursor_append (a b : List Comp) (c : PathM) :
    finalCursor c (a ++ b) = finalCursor (finalCursor c a) b := by
  induction a generalizing c with
  | nil => simp [finalCursor]
  | cons hd tl ih => cases hd <;> simp [finalCursor, ih]

theorem decodeSteps_length (c : PathM) (cs : List Comp) :
    (decodeSteps c cs).length = namesCount cs := by
  induction cs generalizing c with
  | nil => simp [decodeSteps, namesCount]
  | cons hd tl ih => cases hd <;> simp [decodeSteps, namesCount, ih]

theorem enteredList_append (a b : List Event) :
    enteredList (a ++ b) = enteredList a ++ enteredList b := by
  induction a with
  | nil => simp [enteredList]
  | cons hd tl ih => cases hd <;> simp [enteredList, ih]

theorem PathM.pop_push (p : PathM) (s : String) : (p.push s).pop = p := by
  simp [PathM.push, PathM.pop]

theorem balancedAt_nil : balancedAt [] := by
  intro n
  simp [namesCount, upsCount]

theorem balancedAt_le {d : List Comp} (h : balancedAt d) :
    upsCount d ≤ namesCount d := by
  have := h d.length
  simpa using this

theorem balancedAt_append {a b : List Comp} (ha : balancedAt a) (hb : balancedAt b) :
    balancedAt (a ++ b) := by
  intro n
  rw [List.take_append_eq_append_take, namesCount_append, upsCount_append]
  have h1 := ha n
  have h2 := hb (n - a.length)
  omega

theorem balancedAt_block {inner : List Comp} (h : balancedAt inner) (nm : String) :
    balancedAt (Comp.name nm :: (inner ++ [Comp.up])) := by
  intro n
  cases n with
  | zero => simp [namesCount, upsCount]
  | succ m =>
    simp only [List.take_succ_cons, namesCount, upsCount]
    rw [List.take_append_eq_append_take, namesCount_append, upsCount_append]
    have h1 := h m
    have h2 : upsCount (List.take (m - inner.length) [Comp.up]) ≤ 1 := by
      cases (m - inner.length) <;> simp [upsCount]
    have h3 : namesCount (List.take (m - inner.length) [Comp.up]) = 0 := by
      cases (m - inner.length) <;> simp [namesCount]
    omega

theorem balancedAt_pair (nm : String) : balancedAt [Comp.name nm, Comp.up] := by
  have := balancedAt_block balancedAt_nil nm
  simpa using this

/-! Step equations for the builder, one per control-flow branch of the
source.  Each rewrites a builder call into its explicit result, given the
outcomes of the visitor calls it makes. -/

theorem add_item_filter_error {V : Visitor σ} {dir : PathM} {buf : List Comp} {s s1 : σ}
    {nm : String} {ftype : Except IoError FileType} {listing : Listing} {e : IoError}
    (hf : V.filter s (dir.push nm) (Entry.mk nm ftype listing) = (s1, .error e)) :
    add_item V dir buf s (Entry.mk nm ftype listing) =
      ⟨buf, s1, [.raised e .filterStep], some e⟩ := by
  simp [add_item, hf]

theorem add_item_filter_false {V : Visitor σ} {dir : PathM} {buf : List Comp} {s s1 : σ}
    {nm : String} {ftype : Except IoError FileType} {listing : Listing}
    (hf : V.filter s (dir.push nm) (Entry.mk nm ftype listing) = (s1, .ok false)) :
    add_item V dir buf s (Entry.mk nm ftype listing) = ⟨buf, s1, [], none⟩ := by
  simp [add_item, hf]

theorem add_item_visit_error {V : Visitor σ} {dir : PathM} {buf : List Comp} {s s1 s2 : σ}
    {nm : String} {ftype : Except IoError FileType} {listing : Listing} {e : IoError}
    (hf : V.filter s (dir.push nm) (Entry.mk nm ftype listing) = (s1, .ok true))
    (hv : V.visit s1 (dir.push nm) (Entry.mk nm ftype listing) = (s2, .error e)) :
    add_item V dir buf s (Entry.mk nm ftype listing) =
      ⟨buf, s2, [.visited (dir.push nm), .raised e .visitStep], some e⟩ := by
  simp [add_item, hf, hv]

theorem add_item_ftype_error {V : Visitor σ} {dir : PathM} {buf : List Comp} {s s1 s2 : σ}
    {nm : String} {listing : Listing} {e : IoError} {u : Unit}
    (hf : V.filter s (dir.push nm) (Entry.mk nm (.error e) listing) = (s1, .ok true))
    (hv : V.visit s1 (dir.push nm) (Entry.mk nm (.error e) listing) = (s2, .ok u)) :
    add_item V dir buf s (Entry.mk nm (.error e) listing) =
      ⟨buf, s2, [.visited (dir.push nm), .raised e .ftypeStep], some e⟩ := by
  simp [add_item, hf, hv]

theorem add_item_dir {V : Visitor σ} {dir : PathM} {buf : List Comp} {s s1 s2 : σ}
    {nm : String} {listing : Listing} {u : Unit}
    (hf : V.filter s (dir.push nm) (Entry.mk nm (.ok FileType.dir) listing) = (s1, .ok true))
    (hv : V.visit s1 (dir.push nm) (Entry.mk nm (.ok FileType.dir) listing) = (s2, .ok u)) :
    add_item V dir buf s (Entry.mk nm (.ok FileType.dir) listing) =
      ⟨(build_tree V (dir.push nm) (buf ++ [Comp.name nm]) s2 listing).buf ++ [Comp.up],
       (build_tree V (dir.push nm) (buf ++ [Comp.name nm]) s2 listing).st,
       [.visited (dir.push nm), .entered (dir.push nm)] ++
         (build_tree V (dir.push nm) (buf ++ [Comp.name nm]) s2 listing).events,
       (build_tree V (dir.push nm) (buf ++ [Comp.name nm]) s2 listing).err⟩ := by
  simp [add_item, hf, hv]

theorem add_item_nondir {V : Visitor σ} {dir : PathM} {buf : List Comp} {s s1 s2 : σ}
    {nm : String} {listing : Listing} {t : FileType} {u : Unit}
    (hf : V.filter s (dir.push nm) (Entry.mk nm (.ok t) listing) = (s1, .ok true))
    (hv : V.visit s1 (dir.push nm) (Entry.mk nm (.ok t) listing) = (s2, .ok u))
    (ht : t ≠ FileType.dir) :
    add_item V dir buf s (Entry.mk nm (.ok t) listing) =
      ⟨buf ++ [Comp.name nm, Comp.up], s2,
       [.visited (dir.push nm), .entered (dir.push nm)], none⟩ := by
  simp [add_item, hf, hv, ht]

theorem build_tree_fail {V : Visitor σ} {dir : PathM} {buf : List Comp} {s : σ} {e : IoError} :
    build_tree V dir buf s (.fail e) = ⟨buf, s, [.raised e .listingOpen], some e⟩ := by
  simp [build_tree]

theorem build_tree_ok {V : Visitor σ} {dir : PathM} {buf : List Comp} {s : σ} {items : Items} :
    build_tree V dir buf s (.ok items) = build_items V dir buf s items := by
  simp [build_tree]

theorem build_items_nil {V : Visitor σ} {dir : PathM} {buf : List Comp} {s : σ} :
    build_items V dir buf s .nil = ⟨buf, s, [], none⟩ := by
  simp [build_items]

theorem build_items_fail_ignored {V : Visitor σ} {dir : PathM} {buf : List Comp} {s s1 : σ}
    {e : IoError} {rest : Items}
    (hh : V.handleError s e dir none = (s1, none)) :
    build_items V dir buf s (.cons (.fail e) rest) =
      ⟨(build_items V dir buf s1 rest).buf, (build_items V dir buf s1 rest).st,
       [.raised e .itemFail, .offered e dir none none] ++ (build_items V dir buf s1 rest).events,
       (build_items V dir buf s1 rest).err⟩ := by
  simp [build_items, hh]

theorem build_items_fail_fatal {V : Visitor σ} {dir : PathM} {buf : List Comp} {s s1 : σ}
    {e e2 : IoError} {rest : Items}
    (hh : V.handleError s e dir none = (s1, some e2)) :
    build_items V dir buf s (.cons (.fail e) rest) =
      ⟨buf, s1, [.raised e .itemFail, .offered e dir none (some e2)], some e2⟩ := by
  simp [build_items, hh]

theorem build_items_good_ok {V : Visitor σ} {dir : PathM} {buf b1 : List Comp} {s st1 : σ}
    {ev1 : List Event} {entry : Entry} {rest : Items}
    (hai : add_item V dir buf s entry = ⟨b1, st1, ev1, none⟩) :
    build_items V dir buf s (.cons (.good entry) rest) =
      ⟨(build_items V dir b1 st1 rest).buf, (build_items V dir b1 st1 rest).st,
       ev1 ++ (build_items V dir b1 st1 rest).events, (build_items V dir b1 st1 rest).err⟩ := by
  simp [build_items, hai]

theorem build_items_good_ignored {V : Visitor σ} {dir : PathM} {buf b1 : List Comp}
    {s st1 s1 : σ} {ev1 : List Event} {entry : Entry} {rest : Items} {e : IoError}
    (hai : add_item V dir buf s entry = ⟨b1, st1, ev1, some e⟩)
    (hh : V.handleError st1 e dir (some (dir.push entry.name, entry)) = (s1, none)) :
    build_items V dir buf s (.cons (.good entry) rest) =
      ⟨(build_items V dir b1 s1 rest).buf, (build_items V dir b1 s1 rest).st,
       ev1 ++ [.offered e dir (some (dir.push entry.name, entry)) none] ++
         (build_items V dir b1 s1 rest).events,
       (build_items V dir b1 s1 rest).err⟩ := by
  simp [build_items, hai, hh]

theorem build_items_good_fatal {V : Visitor σ} {dir : PathM} {buf b1 : List Comp}
    {s st1 s1 : σ} {ev1 : List Event} {entry : Entry} {rest : Items} {e e2 : IoError}
    (hai : add_item V dir buf s entry = ⟨b1, st1, ev1, some e⟩)
    (hh : V.handleError st1 e dir (some (dir.push entry.name, entry)) = (s1, some e2)) :
    build_items V dir buf s (.cons (.good entry) rest) =
      ⟨b1, s1, ev1 ++ [.offered e dir (some (dir.push entry.name, entry)) (some e2)],
       some e2⟩ := by
  simp [build_items, hai, hh]

@[simp] theorem enteredList_nil : enteredList [] = [] := rfl

@[simp] theorem enteredList_cons_raised (e : IoError) (src : Source) (rest : List Event) :
    enteredList (Event.raised e src :: rest) = enteredList rest := rfl

@[simp] theorem enteredList_cons_offered (e : IoError) (dir : PathM)
    (ent : Option (PathM × Entry)) (v : Option IoError) (rest : List Event) :
    enteredList (Event.offered e dir ent v :: rest) = enteredList rest := rfl

@[simp] theorem enteredList_cons_visited (p : PathM) (rest : List Event) :
    enteredList (Event.visited p :: rest) = enteredList rest := rfl

@[simp] theorem enteredList_cons_entered (p : PathM) (rest : List Event) :
    enteredList (Event.entered p :: rest) = p :: enteredList rest := rfl

mutual
theorem add_item_delta (V : Visitor σ) (dir : PathM) (buf : List Comp) (s : σ)
    (item : Entry) :
    ∃ d, (add_item V dir buf s item).buf = buf ++ d ∧
      DeltaSpec dir [item.name] (add_item V dir buf s item).events d := by
  match item with
  | .mk nm ftype listing =>
    rcases hf : V.filter s (dir.push nm) (Entry.mk nm ftype listing) with ⟨s1, fb⟩
    match fb with
    | .error e =>
      refine ⟨[], ?_⟩
      rw [add_item_filter_error hf]
      simp [DeltaSpec, decodeSteps, finalCursor, enteredList, namesCount, upsCount,
        balancedAt_nil]
    | .ok false =>
      refine ⟨[], ?_⟩
      rw [add_item_filter_false hf]
      simp [DeltaSpec, decodeSteps, finalCursor, enteredList, namesCount, upsCount,
        balancedAt_nil]
    | .ok true =>
      rcases hv : V.visit s1 (dir.push nm) (Entry.mk nm ftype listing) with ⟨s2, vr⟩
      match vr with
      | .error e =>
        refine ⟨[], ?_⟩
        rw [add_item_visit_error hf hv]
        simp [DeltaSpec, decodeSteps, finalCursor, enteredList, namesCount, upsCount,
          balancedAt_nil]
      | .ok u =>
        match ftype with
        | .error e =>
          refine ⟨[], ?_⟩
          rw [add_item_ftype_error hf hv]
          simp [DeltaSpec, decodeSteps, finalCursor, enteredList, namesCount, upsCount,
            balancedAt_nil]
        | .ok t =>
          by_cases htd : t = FileType.dir
          · subst htd
            obtain ⟨d1, hbuf, hcnt, hbal, hdec, hfin, hmem⟩ :=
              build_tree_delta V (dir.push nm) (buf ++ [Comp.name nm]) s2 listing
            refine ⟨Comp.name nm :: (d1 ++ [Comp.up]), ?_, ?_, ?_, ?_, ?_, ?_⟩
            · rw [add_item_dir hf hv, hbuf]
              simp
            · simp only [namesCount, upsCount, namesCount_append, upsCount_append, hcnt]
            · exact balancedAt_block hbal nm
            · rw [add_item_dir hf hv]
              simp [decodeSteps, decodeSteps_append, hdec, hfin, PathM.pop_push]
            · simp only [finalCursor, finalCursor_append, hfin]
              simp [finalCursor, PathM.pop_push]
            · rw [add_item_dir hf hv]
              intro p hp
              simp only [List.cons_append, enteredList_cons_visited,
                enteredList_cons_entered, List.mem_cons] at hp
              rcases hp with hp | hp
              · subst hp
                refine ⟨rfl, nm, [], ?_, ?_⟩
                · simp [PathM.push]
                · simp [Entry.name]
              · obtain ⟨habs, n1, suf1, hcomps, _⟩ := hmem p hp
                refine ⟨habs, nm, n1 :: suf1, ?_, ?_⟩
                · rw [hcomps]
                  simp [PathM.push]
                · simp [Entry.name]
          · obtain ⟨u⟩ := u
            refine ⟨[Comp.name nm, Comp.up], ?_, ?_, ?_, ?_, ?_, ?_⟩
            · rw [add_item_nondir hf hv htd]
            · simp [namesCount, upsCount]
            · exact balancedAt_pair nm
            · rw [add_item_nondir hf hv htd]
              simp [decodeSteps, enteredList, PathM.pop_push]
            · simp [finalCursor, PathM.pop_push]
            · rw [add_item_nondir hf hv htd]
              intro p hp
              simp only [enteredList_cons_visited, enteredList_cons_entered,
                enteredList_nil, List.mem_singleton] at hp
              subst hp
              refine ⟨rfl, nm, [], ?_, ?_⟩
              · simp [PathM.push]
              · simp [Entry.name]

theorem build_tree_delta (V : Visitor σ) (dir : PathM) (buf : List Comp) (s : σ)
    (listing : Listing) :
    ∃ d, (build_tree V dir buf s listing).buf = buf ++ d ∧
      DeltaSpec dir (goodNamesL listing) (build_tree V dir buf s listing).events d := by
  match listing with
  | .fail e =>
    refine ⟨[], ?_⟩
    rw [build_tree_fail]
    simp [DeltaSpec, decodeSteps, finalCursor, enteredList, namesCount, upsCount,
      balancedAt_nil]
  | .ok items =>
    rw [build_tree_ok]
    exact build_items_delta V dir buf s items

theorem build_items_delta (V : Visitor σ) (dir : PathM) (buf : List Comp) (s : σ)
    (items : Items) :
    ∃ d, (build_items V dir buf s items).buf = buf ++ d ∧
      DeltaSpec dir (goodNames items) (build_items V dir buf s items).events d := by
  match items with
  | .nil =>
    refine ⟨[], ?_⟩
    rw [build_items_nil]
    simp [DeltaSpec, decodeSteps, finalCursor, enteredList, namesCount, upsCount,
      balancedAt_nil]
  | .cons (.fail e) rest =>
    rcases hh : V.handleError s e dir none with ⟨s1, verdict⟩
    match verdict with
    | none =>
      obtain ⟨d1, hbuf, hcnt, hbal, hdec, hfin, hmem⟩ :=
        build_items_delta V dir buf s1 rest
      refine ⟨d1, ?_, hcnt, hbal, ?_, hfin, ?_⟩
      · rw [build_items_fail_ignored hh, hbuf]
      · rw [build_items_fail_ignored hh]
        simpa using hdec
      · rw [build_items_fail_ignored hh]
        intro p hp
        simp only [List.cons_append, enteredList_cons_raised, enteredList_cons_offered] at hp
        obtain ⟨habs, n1, suf1, hcomps, hn⟩ := hmem p hp
        exact ⟨habs, n1, suf1, hcomps, by simpa [goodNames] using hn⟩
    | some e2 =>
      refine ⟨[], ?_⟩
      rw [build_items_fail_fatal hh]
      simp [DeltaSpec, decodeSteps, finalCursor, enteredList, namesCount, upsCount,
        balancedAt_nil]
  | .cons (.good entry) rest =>
    obtain ⟨d1, hbuf1, hcnt1, hbal1, hdec1, hfin1, hmem1⟩ :=
      add_item_delta V dir buf s entry
    rcases hai : add_item V dir buf s entry with ⟨b1, st1, ev1, err1⟩
    rw [hai] at hbuf1 hdec1 hmem1
    simp only at hbuf1 hdec1 hmem1
    match err1 with
    | none =>
      obtain ⟨d2, hbuf2, hcnt2, hbal2, hdec2, hfin2, hmem2⟩ :=
        build_items_delta V dir b1 st1 rest
      refine ⟨d1 ++ d2, ?_, ?_, ?_, ?_, ?_, ?_⟩
      · rw [build_items_good_ok hai, hbuf2, hbuf1]
        simp
      · simp [namesCount_append, upsCount_append, hcnt1, hcnt2]
      · exact balancedAt_append hbal1 hbal2
      · rw [build_items_good_ok hai]
        simp only [decodeSteps_append, hfin1, hdec1, hdec2, enteredList_append]
      · rw [finalCursor_append, hfin1, hfin2]
      · rw [build_items_good_ok hai]
        intro p hp
        rw [enteredList_append] at hp
        rcases List.mem_append.mp hp with hp | hp
        · obtain ⟨habs, n1, suf1, hcomps, hn⟩ := hmem1 p hp
          refine ⟨habs, n1, suf1, hcomps, ?_⟩
          simp only [List.mem_singleton] at hn
          simp [goodNames, hn]
        · obtain ⟨habs, n1, suf1, hcomps, hn⟩ := hmem2 p hp
          exact ⟨habs, n1, suf1, hcomps, by simp [goodNames, hn]⟩
    | some e =>
      rcases hh : V.handleError st1 e dir (some (dir.push entry.name, entry)) with ⟨s1, verdict⟩
      match verdict with
      | none =>
        obtain ⟨d2, hbuf2, hcnt2, hbal2, hdec2, hfin2, hmem2⟩ :=
          build_items_delta V dir b1 s1 rest
        refine ⟨d1 ++ d2, ?_, ?_, ?_, ?_, ?_, ?_⟩
        · rw [build_items_good_ignored hai hh, hbuf2, hbuf1]
          simp
        · simp [namesCount_append, upsCount_append, hcnt1, hcnt2]
        · exact balancedAt_append hbal1 hbal2
        · rw [build_items_good_ignored hai hh]
          simp [decodeSteps_append, hfin1, hdec1, hdec2, enteredList_append]
        · rw [finalCursor_append, hfin1, hfin2]
        · rw [build_items_good_ignored hai hh]
          intro p hp
          simp only [enteredList_append, enteredList_cons_offered, enteredList_nil,
            List.nil_append, List.append_nil, List.mem_append] at hp
          rcases hp with hp | hp
          · obtain ⟨habs, n1, suf1, hcomps, hn⟩ := hmem1 p hp
            refine ⟨habs, n1, suf1, hcomps, ?_⟩
            simp only [List.mem_singleton] at hn
            simp [goodNames, hn]
          · obtain ⟨habs, n1, suf1, hcomps, hn⟩ := hmem2 p hp
            exact ⟨habs, n1, suf1, hcomps, by simp [goodNames, hn]⟩
      | some e2 =>
        refine ⟨d1, ?_, hcnt1, hbal1, ?_, hfin1, ?_⟩
        · rw [build_items_good_fatal hai hh, hbuf1]
        · rw [build_items_good_fatal hai hh]
          simp [enteredList_append, hdec1]
        · rw [build_items_good_fatal hai hh]
          intro p hp
          simp only [enteredList_append, enteredList_cons_offered, enteredList_nil,
            List.append_nil] at hp
          obtain ⟨habs, n1, suf1, hcomps, hn⟩ := hmem1 p hp
          refine ⟨habs, n1, suf1, hcomps, ?_⟩
          simp only [List.mem_singleton] at hn
          simp [goodNames, hn]
end

theorem new_events {σ : Type} (V : Visitor σ) (root : PathM) (fs : Listing) (s : σ) :
    (CompactPathTree.new root fs V s).events = (build_tree V root [] s fs).events := by
  cases herr : (build_tree V root [] s fs).err <;>
    simp [CompactPathTree.new, herr]

theorem new_st {σ : Type} (V : Visitor σ) (root : PathM) (fs : Listing) (s : σ) :
    (CompactPathTree.new root fs V s).st = (build_tree V root [] s fs).st := by
  cases herr : (build_tree V root [] s fs).err <;>
    simp [CompactPathTree.new, herr]

theorem new_ok_inv {σ : Type} {V : Visitor σ} {root : PathM} {fs : Listing} {s : σ}
    {t : CompactPathTree}
    (h : (CompactPathTree.new root fs V s).result = .ok t) :
    t.root = root ∧ t.path = (build_tree V root [] s fs).buf ∧
    (build_tree V root [] s fs).err = none := by
  cases herr : (build_tree V root [] s fs).err with
  | some e =>
    simp [CompactPathTree.new, herr] at h
  | none =>
    simp [CompactPathTree.new, herr] at h
    rw [← h]
    exact ⟨rfl, rfl, rfl⟩

theorem new_err_inv {σ : Type} {V : Visitor σ} {root : PathM} {fs : Listing} {s : σ}
    {e : IoError}
    (h : (CompactPathTree.new root fs V s).result = .error e) :
    (build_tree V root [] s fs).err = some e := by
  cases herr : (build_tree V root [] s fs).err with
  | some e2 =>
    simp [CompactPathTree.new, herr] at h
    rw [h]
  | none =>
    simp [CompactPathTree.new, herr] at h

/-- Claim C1: for every tree returned successfully by `CompactPathTree::new`,
the encoded buffer consists only of `Name` and `Up` components, a
left-to-right scan never attempts to ascend below the root level (every
prefix has at most as many `Up`s as `Name`s), and the total number of
components is exactly twice the number of included entries (the entries
for which a `Name` was pushed, recorded as `entered` events of the
trace). -/
theorem c1_buffer_invariant {σ : Type} (V : Visitor σ) (root : PathM) (fs : Listing)
    (s : σ) (t : CompactPathTree)
    (h : (CompactPathTree.new root fs V s).result = .ok t) :
    (∀ c ∈ t.path, c = Comp.up ∨ ∃ n, c = Comp.name n) ∧
    (∀ k, upsCount (List.take k t.path) ≤ namesCount (List.take k t.path)) ∧
    t.path.length = 2 * (enteredList (CompactPathTree.new root fs V s).events).length := by
  obtain ⟨hroot, hpath, herr⟩ := new_ok_inv h
  obtain ⟨d, hbuf, hcnt, hbal, hdec, hfin, hmem⟩ := build_tree_delta V root [] s fs
  rw [List.nil_append] at hbuf
  rw [new_events]
  refine ⟨?_, ?_, ?_⟩
  · intro c _
    cases c with
    | up => exact Or.inl rfl
    | name n => exact Or.inr ⟨n, rfl⟩
  · intro k
    rw [hpath, hbuf]
    exact hbal k
  · rw [hpath, hbuf, ← hdec, decodeSteps_length, length_eq_counts d, hcnt]
    omega

/-- Claim C10: every path yielded by `iter` of a successfully built tree
has the supplied root as a strict ancestor (same absoluteness flag, and
its components strictly extend the root's), and is the path of one
included entry (an `entered` path of the trace); `new` places no
absoluteness requirement on the root, so a relative root yields relative
paths (the flag is inherited unchanged). -/
theorem c10_root_strict_ancestor {σ : Type} (V : Visitor σ) (root : PathM) (fs : Listing)
    (s : σ) (t : CompactPathTree)
    (h : (CompactPathTree.new root fs V s).result = .ok t) :
    ∀ p ∈ t.iter,
      p.absolute = root.absolute ∧
      (∃ suf, suf ≠ [] ∧ p.comps = root.comps ++ suf) ∧
      p ∈ enteredList (CompactPathTree.new root fs V s).events := by
  obtain ⟨hroot, hpath, herr⟩ := new_ok_inv h
  obtain ⟨d, hbuf, hcnt, hbal, hdec, hfin, hmem⟩ := build_tree_delta V root [] s fs
  rw [List.nil_append] at hbuf
  intro p hp
  rw [CompactPathTree.iter, hroot, hpath, hbuf, hdec] at hp
  obtain ⟨habs, n, suf, hcomps, _⟩ := hmem p hp
  rw [new_events]
  exact ⟨habs, ⟨n :: suf, by simp, hcomps⟩, hp⟩

theorem srcOffered_mono {evts evts2 : List Event} {e : IoError} {src : Source}
    (hsub : ∀ ev, ev ∈ evts → ev ∈ evts2) (h : srcOffered evts e src) :
    srcOffered evts2 e src := by
  cases src with
  | itemFail =>
    obtain ⟨d, v, hm⟩ := h
    exact ⟨d, v, hsub _ hm⟩
  | listingOpen =>
    obtain ⟨d, pe, v, hm⟩ := h
    exact ⟨d, pe, v, hsub _ hm⟩
  | filterStep =>
    obtain ⟨d, ent, v, hm⟩ := h
    exact ⟨d, ent, v, hsub _ hm⟩
  | visitStep =>
    obtain ⟨d, ent, v, hm⟩ := h
    exact ⟨d, ent, v, hsub _ hm⟩
  | ftypeStep =>
    obtain ⟨d, ent, v, hm⟩ := h
    exact ⟨d, ent, v, hsub _ hm⟩

theorem srcOffered_of_offered {evts : List Event} {e : IoError} {src : Source}
    {d : PathM} {pe : PathM × Entry} {v : Option IoError}
    (hne : src ≠ Source.itemFail)
    (hmem : Event.offered e d (some pe) v ∈ evts) :
    srcOffered evts e src := by
  cases src with
  | itemFail => exact absurd rfl hne
  | listingOpen => exact ⟨d, pe, v, hmem⟩
  | filterStep => exact ⟨d, some pe, v, hmem⟩
  | visitStep => exact ⟨d, some pe, v, hmem⟩
  | ftypeStep => exact ⟨d, some pe, v, hmem⟩

mutual
theorem add_item_offers (V : Visitor σ) (dir : PathM) (buf : List Comp) (s : σ)
    (item : Entry) :
    ∀ e src, Event.raised e src ∈ (add_item V dir buf s item).events →
      srcOffered (add_item V dir buf s item).events e src ∨
        (src ≠ Source.itemFail ∧ (add_item V dir buf s item).err = some e) := by
  match item with
  | .mk nm ftype listing =>
    rcases hf : V.filter s (dir.push nm) (Entry.mk nm ftype listing) with ⟨s1, fb⟩
    match fb with
    | .error e1 =>
      rw [add_item_filter_error hf]
      intro e src hmem
      simp only [List.mem_singleton, Event.raised.injEq] at hmem
      obtain ⟨he, hsrc⟩ := hmem
      subst he
      subst hsrc
      exact Or.inr ⟨by simp, rfl⟩
    | .ok false =>
      rw [add_item_filter_false hf]
      intro e src hmem
      simp at hmem
    | .ok true =>
      rcases hv : V.visit s1 (dir.push nm) (Entry.mk nm ftype listing) with ⟨s2, vr⟩
      match vr with
      | .error e1 =>
        rw [add_item_visit_error hf hv]
        intro e src hmem
        simp only [List.mem_cons, List.not_mem_nil, or_false, Event.raised.injEq] at hmem
        rcases hmem with hmem | hmem
        · exact absurd hmem (by simp)
        · obtain ⟨he, hsrc⟩ := hmem
          subst he
          subst hsrc
          exact Or.inr ⟨by simp, rfl⟩
      | .ok u =>
        match ftype with
        | .error e1 =>
          rw [add_item_ftype_error hf hv]
          intro e src hmem
          simp only [List.mem_cons, List.not_mem_nil, or_false, Event.raised.injEq] at hmem
          rcases hmem with hmem | hmem
          · exact absurd hmem (by simp)
          · obtain ⟨he, hsrc⟩ := hmem
            subst he
            subst hsrc
            exact Or.inr ⟨by simp, rfl⟩
        | .ok t =>
          by_cases htd : t = FileType.dir
          · subst htd
            rw [add_item_dir hf hv]
            intro e src hmem
            simp only [List.cons_append, List.nil_append, List.mem_cons] at hmem
            rcases hmem with hmem | hmem | hmem
            · exact absurd hmem (by simp)
            · exact absurd hmem (by simp)
            · rcases build_tree_offers V (dir.push nm) (buf ++ [Comp.name nm]) s2
                listing e src hmem with hoff | ⟨hne, herr⟩
              · refine Or.inl (srcOffered_mono ?_ hoff)
                intro ev hev
                simp only [List.cons_append, List.nil_append, List.mem_cons]
                exact Or.inr (Or.inr hev)
              · exact Or.inr ⟨hne, herr⟩
          · obtain ⟨u⟩ := u
            rw [add_item_nondir hf hv htd]
            intro e src hmem
            simp only [List.mem_cons, List.not_mem_nil, or_false] at hmem
            rcases hmem with hmem | hmem
            · exact absurd hmem (by simp)
            · exact absurd hmem (by simp)

theorem build_tree_offers (V : Visitor σ) (dir : PathM) (buf : List Comp) (s : σ)
    (listing : Listing) :
    ∀ e src, Event.raised e src ∈ (build_tree V dir buf s listing).events →
      srcOffered (build_tree V dir buf s listing).events e src ∨
        (src ≠ Source.itemFail ∧ (build_tree V dir buf s listing).err = some e) := by
  match listing with
  | .fail e1 =>
    rw [build_tree_fail]
    intro e src hmem
    simp only [List.mem_singleton, Event.raised.injEq] at hmem
    obtain ⟨he, hsrc⟩ := hmem
    subst he
    subst hsrc
    exact Or.inr ⟨by simp, rfl⟩
  | .ok items =>
    rw [build_tree_ok]
    intro e src hmem
    exact Or.inl (build_items_offers V dir buf s items e src hmem)

theorem build_items_offers (V : Visitor σ) (dir : PathM) (buf : List Comp) (s : σ)
    (items : Items) :
    ∀ e src, Event.raised e src ∈ (build_items V dir buf s items).events →
      srcOffered (build_items V dir buf s items).events e src := by
  match items with
  | .nil =>
    rw [build_items_nil]
    intro e src hmem
    simp at hmem
  | .cons (.fail e1) rest =>
    rcases hh : V.handleError s e1 dir none with ⟨s1, verdict⟩
    match verdict with
    | none =>
      rw [build_items_fail_ignored hh]
      intro e src hmem
      simp only [List.cons_append, List.nil_append, List.mem_cons,
        Event.raised.injEq] at hmem
      rcases hmem with hmem | hmem | hmem
      · obtain ⟨he, hsrc⟩ := hmem
        subst he
        subst hsrc
        exact ⟨dir, none, by simp⟩
      · exact absurd hmem (by simp)
      · refine srcOffered_mono ?_ (build_items_offers V dir buf s1 rest e src hmem)
        intro ev hev
        simp only [List.cons_append, List.nil_append, List.mem_cons]
        exact Or.inr (Or.inr hev)
    | some e2 =>
      rw [build_items_fail_fatal hh]
      intro e src hmem
      simp only [List.mem_cons, List.not_mem_nil, or_false, Event.raised.injEq] at hmem
      rcases hmem with hmem | hmem
      · obtain ⟨he, hsrc⟩ := hmem
        subst he
        subst hsrc
        exact ⟨dir, some e2, by simp⟩
      · exact absurd hmem (by simp)
  | .cons (.good entry) rest =>
    rcases hai : add_item V dir buf s entry with ⟨b1, st1, ev1, err1⟩
    have hoff1 := add_item_offers V dir buf s entry
    rw [hai] at hoff1
    simp only at hoff1
    match err1 with
    | none =>
      rw [build_items_good_ok hai]
      intro e src hmem
      rcases List.mem_append.mp hmem with hmem | hmem
      · rcases hoff1 e src hmem with hoff | ⟨_, herr⟩
        · refine srcOffered_mono ?_ hoff
          intro ev hev
          exact List.mem_append_left _ hev
        · exact absurd herr (by simp)
      · refine srcOffered_mono ?_ (build_items_offers V dir b1 st1 rest e src hmem)
        intro ev hev
        exact List.mem_append_right _ hev
    | some e1 =>
      rcases hh : V.handleError st1 e1 dir (some (dir.push entry.name, entry)) with
        ⟨s1, verdict⟩
      match verdict with
      | none =>
        rw [build_items_good_ignored hai hh]
        intro e src hmem
        rcases List.mem_append.mp hmem with hmem | hmem
        · rcases List.mem_append.mp hmem with hmem | hmem
          · rcases hoff1 e src hmem with hoff | ⟨hne, herr⟩
            · refine srcOffered_mono ?_ hoff
              intro ev hev
              exact List.mem_append_left _ (List.mem_append_left _ hev)
            · obtain he := Option.some.inj herr
              subst he
              exact srcOffered_of_offered hne
                (List.mem_append_left _ (List.mem_append_right _ (List.mem_singleton.mpr rfl)))
          · exact absurd hmem (by simp)
        · refine srcOffered_mono ?_ (build_items_offers V dir b1 s1 rest e src hmem)
          intro ev hev
          exact List.mem_append_right _ hev
      | some e2 =>
        rw [build_items_good_fatal hai hh]
        intro e src hmem
        rcases List.mem_append.mp hmem with hmem | hmem
        · rcases hoff1 e src hmem with hoff | ⟨hne, herr⟩
          · refine srcOffered_mono ?_ hoff
            intro ev hev
            exact List.mem_append_left _ hev
          · obtain he := Option.some.inj herr
            subst he
            exact srcOffered_of_offered hne
              (List.mem_append_right _ (List.mem_singleton.mpr rfl))
        · exact absurd hmem (by simp)
end

theorem distinctB_head {n : String} {ns : List String}
    (h : distinctB (n :: ns) = true) : n ∉ ns ∧ distinctB ns = true := by
  simp [distinctB] at h
  obtain ⟨h1, h2⟩ := h
  exact ⟨h1, h2⟩

theorem not_anc_of_longer {a b : PathM} {pre : List String} {n : String} {suf : List String}
    (ha : a.comps = pre ++ n :: suf) (hb : b.comps = pre)
    : ¬ anc a b := by
  rintro ⟨habs, s2, hne, hcomps⟩
  rw [hb, ha] at hcomps
  have hlen := congrArg List.length hcomps
  simp only [List.length_append, List.length_cons] at hlen
  omega

theorem not_anc_of_head_ne {a b : PathM} {pre : List String} {na nb : String}
    {sufa sufb : List String}
    (ha : a.comps = pre ++ na :: sufa) (hb : b.comps = pre ++ nb :: sufb)
    (hne : na ≠ nb) : ¬ anc b a := by
  rintro ⟨habs, s2, hs2, hcomps⟩
  rw [ha, hb] at hcomps
  rw [List.append_assoc] at hcomps
  have := List.append_cancel_left hcomps
  simp at this
  exact hne this.1

mutual
theorem add_item_po (V : Visitor σ) (dir : PathM) (buf : List Comp) (s : σ)
    (item : Entry) (hn : nodupE item = true) :
    List.Pairwise (fun a b => ¬ anc b a)
      (enteredList (add_item V dir buf s item).events) := by
  match item with
  | .mk nm ftype listing =>
    rcases hf : V.filter s (dir.push nm) (Entry.mk nm ftype listing) with ⟨s1, fb⟩
    match fb with
    | .error e1 =>
      rw [add_item_filter_error hf]
      simp
    | .ok false =>
      rw [add_item_filter_false hf]
      simp
    | .ok true =>
      rcases hv : V.visit s1 (dir.push nm) (Entry.mk nm ftype listing) with ⟨s2, vr⟩
      match vr with
      | .error e1 =>
        rw [add_item_visit_error hf hv]
        simp
      | .ok u =>
        match ftype with
        | .error e1 =>
          rw [add_item_ftype_error hf hv]
          simp
        | .ok t =>
          by_cases htd : t = FileType.dir
          · subst htd
            rw [add_item_dir hf hv]
            obtain ⟨d1, hbuf, hcnt, hbal, hdec, hfin, hmem⟩ :=
              build_tree_delta V (dir.push nm) (buf ++ [Comp.name nm]) s2 listing
            simp only [List.cons_append, List.nil_append, enteredList_cons_visited,
              enteredList_cons_entered]
            rw [List.pairwise_cons]
            constructor
            · intro b hb
              obtain ⟨habs, n1, suf1, hcomps, _⟩ := hmem b hb
              exact not_anc_of_longer hcomps (by simp [PathM.push])
            · have hn2 : nodupL listing = true := by
                simpa [nodupE] using hn
              exact build_tree_po V (dir.push nm) (buf ++ [Comp.name nm]) s2 listing hn2
          · obtain ⟨u⟩ := u
            rw [add_item_nondir hf hv htd]
            simp

theorem build_tree_po (V : Visitor σ) (dir : PathM) (buf : List Comp) (s : σ)
    (listing : Listing) (hn : nodupL listing = true) :
    List.Pairwise (fun a b => ¬ anc b a)
      (enteredList (build_tree V dir buf s listing).events) := by
  match listing with
  | .fail e1 =>
    rw [build_tree_fail]
    simp
  | .ok items =>
    rw [build_tree_ok]
    simp only [nodupL, Bool.and_eq_true] at hn
    exact build_items_po V dir buf s items hn.1 hn.2

theorem build_items_po (V : Visitor σ) (dir : PathM) (buf : List Comp) (s : σ)
    (items : Items) (hd : distinctB (goodNames items) = true)
    (hn : nodupItems items = true) :
    List.Pairwise (fun a b => ¬ anc b a)
      (enteredList (build_items V dir buf s items).events) := by
  match items with
  | .nil =>
    rw [build_items_nil]
    simp
  | .cons (.fail e1) rest =>
    rcases hh : V.handleError s e1 dir none with ⟨s1, verdict⟩
    simp only [goodNames] at hd
    simp only [nodupItems] at hn
    match verdict with
    | none =>
      rw [build_items_fail_ignored hh]
      simp only [List.cons_append, List.nil_append, enteredList_cons_raised,
        enteredList_cons_offered]
      exact build_items_po V dir buf s1 rest hd hn
    | some e2 =>
      rw [build_items_fail_fatal hh]
      simp
  | .cons (.good entry) rest =>
    simp only [goodNames] at hd
    obtain ⟨hnotin, hd2⟩ := distinctB_head hd
    simp only [nodupItems, Bool.and_eq_true] at hn
    obtain ⟨hne, hnr⟩ := hn
    obtain ⟨d1, hbuf1, hcnt1, hbal1, hdec1, hfin1, hmem1⟩ :=
      add_item_delta V dir buf s entry
    have hpo1 := add_item_po V dir buf s entry hne
    rcases hai : add_item V dir buf s entry with ⟨b1, st1, ev1, err1⟩
    rw [hai] at hmem1 hpo1
    simp only at hmem1 hpo1
    match err1 with
    | none =>
      obtain ⟨d2, hbuf2, hcnt2, hbal2, hdec2, hfin2, hmem2⟩ :=
        build_items_delta V dir b1 st1 rest
      have hpo2 := build_items_po V dir b1 st1 rest hd2 hnr
      rw [build_items_good_ok hai]
      simp only [enteredList_append]
      rw [List.pairwise_append]
      refine ⟨hpo1, hpo2, ?_⟩
      intro a ha b hb
      obtain ⟨_, n1, suf1, hca, hn1⟩ := hmem1 a ha
      obtain ⟨_, n2, suf2, hcb, hn2⟩ := hmem2 b hb
      simp only [List.mem_singleton] at hn1
      subst hn1
      refine not_anc_of_head_ne hca hcb ?_
      intro hcontra
      rw [hcontra] at hnotin
      exact hnotin hn2
    | some e1 =>
      rcases hh : V.handleError st1 e1 dir (some (dir.push entry.name, entry)) with
        ⟨s1, verdict⟩
      match verdict with
      | none =>
        obtain ⟨d2, hbuf2, hcnt2, hbal2, hdec2, hfin2, hmem2⟩ :=
          build_items_delta V dir b1 s1 rest
        have hpo2 := build_items_po V dir b1 s1 rest hd2 hnr
        rw [build_items_good_ignored hai hh]
        simp only [enteredList_append, enteredList_cons_offered, enteredList_nil,
          List.nil_append, List.append_nil]
        rw [List.pairwise_append]
        refine ⟨hpo1, hpo2, ?_⟩
        intro a ha b hb
        obtain ⟨_, n1, suf1, hca, hn1⟩ := hmem1 a ha
        obtain ⟨_, n2, suf2, hcb, hn2⟩ := hmem2 b hb
        simp only [List.mem_singleton] at hn1
        subst hn1
        refine not_anc_of_head_ne hca hcb ?_
        intro hcontra
        rw [hcontra] at hnotin
        exact hnotin hn2
      | some e2 =>
        rw [build_items_good_fatal hai hh]
        simp only [enteredList_append, enteredList_cons_offered, enteredList_nil,
          List.append_nil]
        exact hpo1
end

/-- Claim C2: for every successfully built tree, the iterator scans the
buffer left to right, popping the cursor on `Up` and pushing the
component and yielding a copy of the cursor on `Name` (the last two
conjuncts are the step equations of the decoder); the sequence of yielded
paths is exactly the sequence of `entered` paths of the trace — one path
per included entry, in the discovery order recorded during the walk — and
(for a filesystem whose listings never repeat a name, `nodupL`) every
directory's path is yielded strictly before any of its descendants'
paths.  The sequence is a finite list, exhausted with the buffer. -/
theorem c2_iter_correct {σ : Type} (V : Visitor σ) (root : PathM) (fs : Listing)
    (s : σ) (t : CompactPathTree) (hn : nodupL fs = true)
    (h : (CompactPathTree.new root fs V s).result = .ok t) :
    t.iter = enteredList (CompactPathTree.new root fs V s).events ∧
    List.Pairwise (fun a b => ¬ anc b a) t.iter ∧
    (∀ (c : PathM) (rest2 : List Comp),
      decodeSteps c (Comp.up :: rest2) = decodeSteps c.pop rest2) ∧
    (∀ (c : PathM) (n2 : String) (rest2 : List Comp),
      decodeSteps c (Comp.name n2 :: rest2)
        = c.push n2 :: decodeSteps (c.push n2) rest2) := by
  obtain ⟨hroot, hpath, herr⟩ := new_ok_inv h
  obtain ⟨d, hbuf, hcnt, hbal, hdec, hfin, hmem⟩ := build_tree_delta V root [] s fs
  rw [List.nil_append] at hbuf
  have hiter : t.iter = enteredList (build_tree V root [] s fs).events := by
    rw [CompactPathTree.iter, hroot, hpath, hbuf, hdec]
  refine ⟨?_, ?_, fun c rest2 => rfl, fun c n2 rest2 => rfl⟩
  · rw [hiter, new_events]
  · rw [hiter]
    exact build_tree_po V root [] s fs hn

/-- Claim C3, as stated, is false on the code: when opening the root
directory's listing fails, `build_tree` propagates the error with `?`
before its loop ever runs, so `handle_error` is never consulted: the
trace of the run below contains the raised error and no `offered` event
at all, yet `new` returns the error. -/
theorem c3_counterexample :
    (CompactPathTree.new rootX (Listing.fail e0) plainVisitor ()).result = .error e0 ∧
    (CompactPathTree.new rootX (Listing.fail e0) plainVisitor ()).events
      = [Event.raised e0 Source.listingOpen] :=
  ⟨rfl, rfl⟩

/-- Claim C3, amended: when the root listing itself opens successfully,
every error reaching the Builder — a per-item listing failure, a
subdirectory listing-open failure, a type-query failure, or an error
returned by `filter` or `visit` — is offered to the Policy's
`handle_error` before being either ignored or propagated; a per-item
listing failure is routed with `entry = None`, while a subdirectory
listing-open failure is routed with `entry = Some(..)` (the directory's
own entry).  A failure to open the root listing propagates without
consulting `handle_error` (see the counterexample). -/
theorem c3_amended {σ : Type} (V : Visitor σ) (root : PathM) (items : Items) (s : σ) :
    (∀ e src, Event.raised e src ∈ (CompactPathTree.new root (.ok items) V s).events →
      OfferedIn (CompactPathTree.new root (.ok items) V s).events e) ∧
    (∀ e, Event.raised e Source.itemFail ∈ (CompactPathTree.new root (.ok items) V s).events →
      OfferedNone (CompactPathTree.new root (.ok items) V s).events e) ∧
    (∀ e, Event.raised e Source.listingOpen ∈
        (CompactPathTree.new root (.ok items) V s).events →
      OfferedSome (CompactPathTree.new root (.ok items) V s).events e) := by
  rw [new_events, build_tree_ok]
  have hkey := build_items_offers V root [] s items
  refine ⟨?_, ?_, ?_⟩
  · intro e src hmem
    have h := hkey e src hmem
    cases src with
    | itemFail =>
      obtain ⟨d, v, hm⟩ := h
      exact ⟨d, none, v, hm⟩
    | listingOpen =>
      obtain ⟨d, pe, v, hm⟩ := h
      exact ⟨d, some pe, v, hm⟩
    | filterStep => exact h
    | visitStep => exact h
    | ftypeStep => exact h
  · intro e hmem
    exact hkey e Source.itemFail hmem
  · intro e hmem
    exact hkey e Source.listingOpen hmem

mutual
theorem add_item_avoid (V : Visitor σ) (bad : String) (H : FiltersOut V bad)
    (dir : PathM) (buf : List Comp) (s : σ) (item : Entry)
    (hb : Comp.name bad ∉ buf) :
    Comp.name bad ∉ (add_item V dir buf s item).buf ∧
    ∀ p ∈ enteredList (add_item V dir buf s item).events,
      ∃ suf, p.comps = dir.comps ++ suf ∧ bad ∉ suf := by
  match item with
  | .mk nm ftype listing =>
    by_cases hnm : nm = bad
    · obtain ⟨s1, hfeq⟩ :=
        H s (dir.push nm) (Entry.mk nm ftype listing) (by simp [Entry.name, hnm])
      rw [add_item_filter_false hfeq]
      exact ⟨hb, by simp⟩
    · rcases hf : V.filter s (dir.push nm) (Entry.mk nm ftype listing) with ⟨s1, fb⟩
      match fb with
      | .error e1 =>
        rw [add_item_filter_error hf]
        exact ⟨hb, by simp⟩
      | .ok false =>
        rw [add_item_filter_false hf]
        exact ⟨hb, by simp⟩
      | .ok true =>
        rcases hv : V.visit s1 (dir.push nm) (Entry.mk nm ftype listing) with ⟨s2, vr⟩
        match vr with
        | .error e1 =>
          rw [add_item_visit_error hf hv]
          exact ⟨hb, by simp⟩
        | .ok u =>
          match ftype with
          | .error e1 =>
            rw [add_item_ftype_error hf hv]
            exact ⟨hb, by simp⟩
          | .ok t =>
            by_cases htd : t = FileType.dir
            · subst htd
              have hb2 : Comp.name bad ∉ buf ++ [Comp.name nm] := by
                intro hc
                rcases List.mem_append.mp hc with hc | hc
                · exact hb hc
                · simp at hc
                  exact hnm hc.symm
              obtain ⟨hnb, hmemA⟩ :=
                build_tree_avoid V bad H (dir.push nm) (buf ++ [Comp.name nm]) s2
                  listing hb2
              rw [add_item_dir hf hv]
              constructor
              · intro hc
                rcases List.mem_append.mp hc with hc | hc
                · exact hnb hc
                · simp at hc
              · intro p hp
                simp only [List.cons_append, List.nil_append, enteredList_cons_visited,
                  enteredList_cons_entered, List.mem_cons] at hp
                rcases hp with hp | hp
                · subst hp
                  refine ⟨[nm], by simp [PathM.push], ?_⟩
                  intro hc
                  simp at hc
                  exact hnm hc.symm
                · obtain ⟨suf1, hp1, hbad1⟩ := hmemA p hp
                  refine ⟨nm :: suf1, ?_, ?_⟩
                  · rw [hp1]
                    simp [PathM.push]
                  · intro hc
                    rcases List.mem_cons.mp hc with hc | hc
                    · exact hnm hc.symm
                    · exact hbad1 hc
            · obtain ⟨u⟩ := u
              rw [add_item_nondir hf hv htd]
              constructor
              · intro hc
                rcases List.mem_append.mp hc with hc | hc
                · exact hb hc
                · simp at hc
                  exact hnm hc.symm
              · intro p hp
                simp only [enteredList_cons_visited, enteredList_cons_entered,
                  enteredList_nil, List.mem_singleton] at hp
                subst hp
                refine ⟨[nm], by simp [PathM.push], ?_⟩
                intro hc
                simp at hc
                exact hnm hc.symm

theorem build_tree_avoid (V : Visitor σ) (bad : String) (H : FiltersOut V bad)
    (dir : PathM) (buf : List Comp) (s : σ) (listing : Listing)
    (hb : Comp.name bad ∉ buf) :
    Comp.name bad ∉ (build_tree V dir buf s listing).buf ∧
    ∀ p ∈ enteredList (build_tree V dir buf s listing).events,
      ∃ suf, p.comps = dir.comps ++ suf ∧ bad ∉ suf := by
  match listing with
  | .fail e1 =>
    rw [build_tree_fail]
    exact ⟨hb, by simp⟩
  | .ok items =>
    rw [build_tree_ok]
    exact build_items_avoid V bad H dir buf s items hb

theorem build_items_avoid (V : Visitor σ) (bad : String) (H : FiltersOut V bad)
    (dir : PathM) (buf : List Comp) (s : σ) (items : Items)
    (hb : Comp.name bad ∉ buf) :
    Comp.name bad ∉ (build_items V dir buf s items).buf ∧
    ∀ p ∈ enteredList (build_items V dir buf s items).events,
      ∃ suf, p.comps = dir.comps ++ suf ∧ bad ∉ suf := by
  match items with
  | .nil =>
    rw [build_items_nil]
    exact ⟨hb, by simp⟩
  | .cons (.fail e1) rest =>
    rcases hh : V.handleError s e1 dir none with ⟨s1, verdict⟩
    match verdict with
    | none =>
      obtain ⟨hnb, hmemA⟩ := build_items_avoid V bad H dir buf s1 rest hb
      rw [build_items_fail_ignored hh]
      refine ⟨hnb, ?_⟩
      intro p hp
      simp only [List.cons_append, List.nil_append, enteredList_cons_raised,
        enteredList_cons_offered] at hp
      exact hmemA p hp
    | some e2 =>
      rw [build_items_fail_fatal hh]
      exact ⟨hb, by simp⟩
  | .cons (.good entry) rest =>
    obtain h1 := add_item_avoid V bad H dir buf s entry hb
    rcases hai : add_item V dir buf s entry with ⟨b1, st1, ev1, err1⟩
    rw [hai] at h1
    simp only at h1
    obtain ⟨hnb1, hmem1⟩ := h1
    match err1 with
    | none =>
      obtain ⟨hnb2, hmem2⟩ := build_items_avoid V bad H dir b1 st1 rest hnb1
      rw [build_items_good_ok hai]
      refine ⟨hnb2, ?_⟩
      intro p hp
      rw [enteredList_append] at hp
      rcases List.mem_append.mp hp with hp | hp
      · exact hmem1 p hp
      · exact hmem2 p hp
    | some e1 =>
      rcases hh : V.handleError st1 e1 dir (some (dir.push entry.name, entry)) with
        ⟨s1, verdict⟩
      match verdict with
      | none =>
        obtain ⟨hnb2, hmem2⟩ := build_items_avoid V bad H dir b1 s1 rest hnb1
        rw [build_items_good_ignored hai hh]
        refine ⟨hnb2, ?_⟩
        intro p hp
        simp only [enteredList_append, enteredList_cons_offered, enteredList_nil,
          List.nil_append, List.append_nil, List.mem_append] at hp
        rcases hp with hp | hp
        · exact hmem1 p hp
        · exact hmem2 p hp
      | some e2 =>
        rw [build_items_good_fatal hai hh]
        refine ⟨hnb1, ?_⟩
        intro p hp
        simp only [enteredList_append, enteredList_cons_offered, enteredList_nil,
          List.append_nil] at hp
        exact hmem1 p hp
end

/-- Claim C8: an entry for which `filter` returns `Ok(false)` is skipped
entirely — the buffer is untouched, the state is exactly the one `filter`
left, no event at all is recorded (so `visit` was not called and no
recursion happened), and no error is returned.  Consequently, for any
policy whose `filter` excludes every entry with a given name, the buffer
of a successful build contains no `Name` component with that name, and no
yielded path passes through such a component at any depth. -/
theorem c8_filter_skip :
    (∀ (σ : Type) (V : Visitor σ) (dir : PathM) (buf : List Comp) (s s1 : σ)
      (nm : String) (ftype : Except IoError FileType) (listing : Listing),
      V.filter s (dir.push nm) (Entry.mk nm ftype listing) = (s1, .ok false) →
      add_item V dir buf s (Entry.mk nm ftype listing) = ⟨buf, s1, [], none⟩) ∧
    (∀ (σ : Type) (V : Visitor σ) (bad : String) (root : PathM) (fs : Listing)
      (s : σ) (t : CompactPathTree),
      FiltersOut V bad →
      (CompactPathTree.new root fs V s).result = .ok t →
      Comp.name bad ∉ t.path ∧
      ∀ p ∈ t.iter, ∃ suf, p.comps = root.comps ++ suf ∧ bad ∉ suf) := by
  constructor
  · intro σ V dir buf s s1 nm ftype listing hf
    exact add_item_filter_false hf
  · intro σ V bad root fs s t H h
    obtain ⟨hroot, hpath, herr⟩ := new_ok_inv h
    obtain ⟨d, hbuf, hcnt, hbal, hdec, hfin, hmem⟩ := build_tree_delta V root [] s fs
    rw [List.nil_append] at hbuf
    obtain ⟨hnb, hmemA⟩ := build_tree_avoid V bad H root [] s fs (by simp)
    constructor
    · rw [hpath, hbuf]
      rw [hbuf] at hnb
      exact hnb
    · intro p hp
      rw [CompactPathTree.iter, hroot, hpath, hbuf, hdec] at hp
      exact hmemA p hp

/-- Claim C9: when the root contains exactly one directory `d`, and `d`
contains exactly one file `b`, and the policy includes everything without
error, the build produces the encoded buffer
`[Name "d", Name "b", Up, Up]` and iterating yields exactly `root/d` then
`root/d/b`, in that order. -/
theorem c9_scenario_b (root : PathM) :
    (CompactPathTree.new root fsB plainVisitor ()).result
      = .ok ⟨root, [Comp.name "d", Comp.name "b", Comp.up, Comp.up]⟩ ∧
    CompactPathTree.iter ⟨root, [Comp.name "d", Comp.name "b", Comp.up, Comp.up]⟩
      = [root.push "d", (root.push "d").push "b"] := by
  constructor
  · rfl
  · simp [CompactPathTree.iter, decodeSteps, PathM.pop_push]

/-- Claim C4, as stated, is false on the code: an error classified fatal
deep in the recursion is re-offered to `handle_error` at each enclosing
level, and an enclosing `None` verdict "ignores" it — but by then the
directory's `Name`, everything appended before the inner failure, and the
closing `Up` are already in the buffer.  Concretely, `countVisitor`
classifies the first error (a per-item failure inside `d`) as fatal and
the re-offered error as ignorable: the build succeeds, a `handle_error`
call with verdict `None` is in the trace, and the final buffer is
`[Name "d", Up]`, not the empty buffer that preceded `d`'s processing. -/
theorem c4_counterexample :
    (CompactPathTree.new rootX fs4 countVisitor 0).result
        = .ok ⟨rootX, [Comp.name "d", Comp.up]⟩ ∧
    Event.offered e0 rootX (some (rootX.push "d", entryD4)) none
      ∈ (CompactPathTree.new rootX fs4 countVisitor 0).events := by
  refine ⟨rfl, ?_⟩
  rw [show (CompactPathTree.new rootX fs4 countVisitor 0).events
      = [Event.visited (rootX.push "d"), Event.entered (rootX.push "d"),
         Event.raised e0 Source.itemFail,
         Event.offered e0 (rootX.push "d") none (some e0),
         Event.offered e0 rootX (some (rootX.push "d", entryD4)) none] from rfl]
  simp

/-- Claim C4, amended: whenever `handle_error` classifies as ignorable an
error raised by the listing iteration, by `filter`, by `visit`, or by the
type query, the offending item or entry is skipped with no trace in the
buffer — construction continues with the remaining siblings from exactly
the buffer that preceded the failing operation.  (When the ignored error
is a failed recursion into a directory entry — one already classified
fatal at an inner level — the entry's `Name`, the components appended
before the inner failure, and its closing `Up` remain; see the
counterexample.) -/
theorem c4_amended :
    (∀ (σ : Type) (V : Visitor σ) (dir : PathM) (buf : List Comp) (s s1 : σ)
      (e : IoError) (rest : Items),
      V.handleError s e dir none = (s1, none) →
      (build_items V dir buf s (.cons (.fail e) rest)).buf
          = (build_items V dir buf s1 rest).buf ∧
      (build_items V dir buf s (.cons (.fail e) rest)).st
          = (build_items V dir buf s1 rest).st ∧
      (build_items V dir buf s (.cons (.fail e) rest)).err
          = (build_items V dir buf s1 rest).err) ∧
    (∀ (σ : Type) (V : Visitor σ) (dir : PathM) (buf : List Comp) (s s1 s2 : σ)
      (nm : String) (ftype : Except IoError FileType) (listing : Listing)
      (e : IoError) (rest : Items),
      V.filter s (dir.push nm) (Entry.mk nm ftype listing) = (s1, .error e) →
      V.handleError s1 e dir (some (dir.push nm, Entry.mk nm ftype listing))
          = (s2, none) →
      (build_items V dir buf s (.cons (.good (Entry.mk nm ftype listing)) rest)).buf
          = (build_items V dir buf s2 rest).buf ∧
      (build_items V dir buf s (.cons (.good (Entry.mk nm ftype listing)) rest)).err
          = (build_items V dir buf s2 rest).err) ∧
    (∀ (σ : Type) (V : Visitor σ) (dir : PathM) (buf : List Comp) (s s1 s2 s3 : σ)
      (nm : String) (ftype : Except IoError FileType) (listing : Listing)
      (e : IoError) (rest : Items),
      V.filter s (dir.push nm) (Entry.mk nm ftype listing) = (s1, .ok true) →
      V.visit s1 (dir.push nm) (Entry.mk nm ftype listing) = (s2, .error e) →
      V.handleError s2 e dir (some (dir.push nm, Entry.mk nm ftype listing))
          = (s3, none) →
      (build_items V dir buf s (.cons (.good (Entry.mk nm ftype listing)) rest)).buf
          = (build_items V dir buf s3 rest).buf ∧
      (build_items V dir buf s (.cons (.good (Entry.mk nm ftype listing)) rest)).err
          = (build_items V dir buf s3 rest).err) ∧
    (∀ (σ : Type) (V : Visitor σ) (dir : PathM) (buf : List Comp) (s s1 s2 s3 : σ)
      (nm : String) (listing : Listing) (e : IoError) (u : Unit) (rest : Items),
      V.filter s (dir.push nm) (Entry.mk nm (.error e) listing) = (s1, .ok true) →
      V.visit s1 (dir.push nm) (Entry.mk nm (.error e) listing) = (s2, .ok u) →
      V.handleError s2 e dir (some (dir.push nm, Entry.mk nm (.error e) listing))
          = (s3, none) →
      (build_items V dir buf s (.cons (.good (Entry.mk nm (.error e) listing)) rest)).buf
          = (build_items V dir buf s3 rest).buf ∧
      (build_items V dir buf s (.cons (.good (Entry.mk nm (.error e) listing)) rest)).err
          = (build_items V dir buf s3 rest).err) := by
  refine ⟨?_, ?_, ?_, ?_⟩
  · intro σ V dir buf s s1 e rest hh
    rw [build_items_fail_ignored hh]
    exact ⟨rfl, rfl, rfl⟩
  · intro σ V dir buf s s1 s2 nm ftype listing e rest hf hh
    rw [build_items_good_ignored (add_item_filter_error hf) hh]
    exact ⟨rfl, rfl⟩
  · intro σ V dir buf s s1 s2 s3 nm ftype listing e rest hf hv hh
    rw [build_items_good_ignored (add_item_visit_error hf hv) hh]
    exact ⟨rfl, rfl⟩
  · intro σ V dir buf s s1 s2 s3 nm listing e u rest hf hv hh
    rw [build_items_good_ignored (add_item_ftype_error hf hv) hh]
    exact ⟨rfl, rfl⟩

/-- Claim C5: `filter`, `visit` and the type query all run before the
buffer is touched, so an entry whose `filter` errs, whose `visit` errs,
or whose type query errs leaves the buffer exactly as it was before the
entry was considered, and the error is returned for `handle_error` to
judge — no partial mutation is observable whatever the verdict. -/
theorem c5_type_before_mutation :
    (∀ (σ : Type) (V : Visitor σ) (dir : PathM) (buf : List Comp) (s s1 : σ)
      (nm : String) (ftype : Except IoError FileType) (listing : Listing) (e : IoError),
      V.filter s (dir.push nm) (Entry.mk nm ftype listing) = (s1, .error e) →
      (add_item V dir buf s (Entry.mk nm ftype listing)).buf = buf ∧
      (add_item V dir buf s (Entry.mk nm ftype listing)).err = some e) ∧
    (∀ (σ : Type) (V : Visitor σ) (dir : PathM) (buf : List Comp) (s s1 s2 : σ)
      (nm : String) (ftype : Except IoError FileType) (listing : Listing) (e : IoError),
      V.filter s (dir.push nm) (Entry.mk nm ftype listing) = (s1, .ok true) →
      V.visit s1 (dir.push nm) (Entry.mk nm ftype listing) = (s2, .error e) →
      (add_item V dir buf s (Entry.mk nm ftype listing)).buf = buf ∧
      (add_item V dir buf s (Entry.mk nm ftype listing)).err = some e) ∧
    (∀ (σ : Type) (V : Visitor σ) (dir : PathM) (buf : List Comp) (s s1 s2 : σ)
      (nm : String) (listing : Listing) (e : IoError) (u : Unit),
      V.filter s (dir.push nm) (Entry.mk nm (.error e) listing) = (s1, .ok true) →
      V.visit s1 (dir.push nm) (Entry.mk nm (.error e) listing) = (s2, .ok u) →
      (add_item V dir buf s (Entry.mk nm (.error e) listing)).buf = buf ∧
      (add_item V dir buf s (Entry.mk nm (.error e) listing)).err = some e) := by
  refine ⟨?_, ?_, ?_⟩
  · intro σ V dir buf s s1 nm ftype listing e hf
    rw [add_item_filter_error hf]
    exact ⟨rfl, rfl⟩
  · intro σ V dir buf s s1 s2 nm ftype listing e hf hv
    rw [add_item_visit_error hf hv]
    exact ⟨rfl, rfl⟩
  · intro σ V dir buf s s1 s2 nm listing e u hf hv
    rw [add_item_ftype_error hf hv]
    exact ⟨rfl, rfl⟩

/-- Claim C6: for every entry that reaches the buffer (its `filter`
passed, `visit` succeeded, and the type query answered), the buffer grows
by `Name` … `Up` with a balanced interior, whether or not the recursion
into a directory succeeded: the `Up` is appended as the last action for
the entry and only then is the recursion's error propagated, so the delta
is structurally balanced (every appended `Name` matched by an `Up`) at
the point where the enclosing `handle_error` call observes the failure. -/
theorem c6_up_always {σ : Type} (V : Visitor σ) (dir : PathM) (buf : List Comp)
    (s s1 s2 : σ) (u : Unit) (nm : String) (t : FileType) (listing : Listing)
    (hf : V.filter s (dir.push nm) (Entry.mk nm (.ok t) listing) = (s1, .ok true))
    (hv : V.visit s1 (dir.push nm) (Entry.mk nm (.ok t) listing) = (s2, .ok u)) :
    ∃ inner,
      (add_item V dir buf s (Entry.mk nm (.ok t) listing)).buf
        = buf ++ Comp.name nm :: (inner ++ [Comp.up]) ∧
      namesCount inner = upsCount inner ∧
      (t = FileType.dir →
        (add_item V dir buf s (Entry.mk nm (.ok t) listing)).err
          = (build_tree V (dir.push nm) (buf ++ [Comp.name nm]) s2 listing).err) ∧
      (t ≠ FileType.dir →
        inner = [] ∧ (add_item V dir buf s (Entry.mk nm (.ok t) listing)).err = none) := by
  by_cases htd : t = FileType.dir
  · subst htd
    obtain ⟨d1, hbuf, hcnt, hbal, hdec, hfin, hmem⟩ :=
      build_tree_delta V (dir.push nm) (buf ++ [Comp.name nm]) s2 listing
    refine ⟨d1, ?_, hcnt, fun _ => ?_, fun hc => absurd rfl hc⟩
    · rw [add_item_dir hf hv]
      simp [hbuf]
    · rw [add_item_dir hf hv]
  · refine ⟨[], ?_, rfl, fun hc => absurd hc htd, fun _ => ⟨rfl, ?_⟩⟩
    · rw [add_item_nondir hf hv htd]
      simp
    · rw [add_item_nondir hf hv htd]

/-- Claim C7: the default (unoverridden) `handle_error` logs a
permission-denied error (one line appended to stderr, modelled by the
visitor state) and classifies it non-fatal (`None`), and classifies an
error of any other kind fatal (`Some(error)`).  In the concrete scenario,
an entry whose type query fails with permission denied under the default
policy is skipped — absent from the buffer and from the iteration — and
construction otherwise succeeds, with the line logged. -/
theorem c7_default_policy :
    (∀ (s : List String) (e : IoError) (dir : PathM) (ent : Option (PathM × Entry)),
      e.kind = ErrorKind.permissionDenied →
      defaultVisitor.handleError s e dir ent =
        (s ++ ["Permission denied reading " ++ describeTarget dir ent ++ ": " ++ e.msg],
         none)) ∧
    (∀ (s : List String) (e : IoError) (dir : PathM) (ent : Option (PathM × Entry)),
      e.kind ≠ ErrorKind.permissionDenied →
      defaultVisitor.handleError s e dir ent = (s, some e)) ∧
    (∀ root : PathM,
      (CompactPathTree.new root fsC defaultVisitor []).result
        = .ok ⟨root, [Comp.name "a", Comp.up]⟩ ∧
      CompactPathTree.iter ⟨root, [Comp.name "a", Comp.up]⟩ = [root.push "a"] ∧
      (CompactPathTree.new root fsC defaultVisitor []).st
        = ["Permission denied reading " ++
             describeTarget root (some (root.push "x", entryX)) ++ ": " ++ pdErr.msg]) := by
  refine ⟨?_, ?_, ?_⟩
  · intro s e dir ent h
    rcases e with ⟨k, m⟩
    simp only [IoError.kind] at h
    subst h
    simp [defaultVisitor, IoError.msg]
  · intro s e dir ent h
    rcases e with ⟨k, m⟩
    simp only [IoError.kind] at h
    cases k with
    | permissionDenied => exact absurd rfl h
    | notFound => simp [defaultVisitor]
    | other => simp [defaultVisitor]
  · intro root
    refine ⟨rfl, ?_, rfl⟩
    simp [CompactPathTree.iter, decodeSteps, PathM.pop_push]

/-- Witness for claim C1 at scenario B. -/
theorem c1_witness :
    (CompactPathTree.mk rootX
        [Comp.name "d", Comp.name "b", Comp.up, Comp.up]).path.length
      = 2 * (enteredList (CompactPathTree.new rootX fsB plainVisitor ()).events).length :=
  (c1_buffer_invariant plainVisitor rootX fsB ()
    ⟨rootX, [Comp.name "d", Comp.name "b", Comp.up, Comp.up]⟩ rfl).2.2

/-- Witness for claim C2 at scenario B. -/
theorem c2_witness :
    CompactPathTree.iter
        ⟨rootX, [Comp.name "d", Comp.name "b", Comp.up, Comp.up]⟩
      = enteredList (CompactPathTree.new rootX fsB plainVisitor ()).events :=
  (c2_iter_correct plainVisitor rootX fsB ()
    ⟨rootX, [Comp.name "d", Comp.name "b", Comp.up, Comp.up]⟩ rfl rfl).1

/-- Witness for the amended claim C3: the per-item listing failure inside
`d` is offered to `handle_error` with no entry. -/
theorem c3_witness :
    OfferedNone (CompactPathTree.new rootX (Listing.ok items4) countVisitor 0).events e0 := by
  refine (c3_amended countVisitor rootX items4 0).2.1 e0 ?_
  rw [show (CompactPathTree.new rootX (Listing.ok items4) countVisitor 0).events
      = [Event.visited (rootX.push "d"), Event.entered (rootX.push "d"),
         Event.raised e0 Source.itemFail,
         Event.offered e0 (rootX.push "d") none (some e0),
         Event.offered e0 rootX (some (rootX.push "d", entryD4)) none] from rfl]
  simp

/-- Witness for the amended claim C4: an ignored per-item listing failure
leaves the buffer of the continuation unchanged. -/
theorem c4_witness :
    (build_items countVisitor rootX [] 5 (Items.cons (Item.fail e0) Items.nil)).buf
      = (build_items countVisitor rootX [] 6 Items.nil).buf :=
  (c4_amended.1 Nat countVisitor rootX [] 5 6 e0 Items.nil rfl).1

/-- Witness for claim C5: a failing `filter` leaves the buffer alone. -/
theorem c5_witness :
    (add_item errVisitor rootX [] () (Entry.mk "f" (.ok .file) (.ok .nil))).buf = [] ∧
    (add_item errVisitor rootX [] () (Entry.mk "f" (.ok .file) (.ok .nil))).err = some e0 :=
  c5_type_before_mutation.1 Unit errVisitor rootX [] () () "f" (.ok .file) (.ok .nil)
    e0 rfl

/-- Witness for claim C6 at directory `d` of scenario B. -/
theorem c6_witness :
    ∃ inner,
      (add_item plainVisitor rootX [] () (Entry.mk "d" (.ok FileType.dir) dListing)).buf
        = [] ++ Comp.name "d" :: (inner ++ [Comp.up]) ∧
      namesCount inner = upsCount inner ∧
      (FileType.dir = FileType.dir →
        (add_item plainVisitor rootX [] () (Entry.mk "d" (.ok FileType.dir) dListing)).err
          = (build_tree plainVisitor (rootX.push "d") ([] ++ [Comp.name "d"]) ()
              dListing).err) ∧
      (FileType.dir ≠ FileType.dir →
        inner = [] ∧
        (add_item plainVisitor rootX [] ()
            (Entry.mk "d" (.ok FileType.dir) dListing)).err = none) :=
  c6_up_always plainVisitor rootX [] () () () () "d" FileType.dir dListing rfl rfl

/-- Witness for claim C7: the default policy classifies a concrete
permission-denied error non-fatal and logs it. -/
theorem c7_witness :
    defaultVisitor.handleError [] pdErr rootX none
      = (["Permission denied reading " ++ describeTarget rootX none ++ ": " ++ pdErr.msg],
         none) :=
  c7_default_policy.1 [] pdErr rootX none rfl

/-- Witness for claim C8: with the `.cache`-excluding policy on the
nested scenario, the built buffer holds no `.cache` component. -/
theorem c8_witness :
    Comp.name ".cache" ∉
      (CompactPathTree.mk rootX
        [Comp.name "sub", Comp.up, Comp.name "keep", Comp.up]).path :=
  (c8_filter_skip.2 Unit cacheVisitor ".cache" rootX fsCache ()
    ⟨rootX, [Comp.name "sub", Comp.up, Comp.name "keep", Comp.up]⟩
    (fun s p ent h => ⟨s, by simp [cacheVisitor, h]⟩) rfl).1

/-- Witness for claim C10 at scenario B: the yielded path `root/d`
strictly extends the root. -/
theorem c10_witness :
    (rootX.push "d").absolute = rootX.absolute ∧
    (∃ suf, suf ≠ [] ∧ (rootX.push "d").comps = rootX.comps ++ suf) ∧
    rootX.push "d" ∈ enteredList (CompactPathTree.new rootX fsB plainVisitor ()).events :=
  c10_root_strict_ancestor plainVisitor rootX fsB ()
    ⟨rootX, [Comp.name "d", Comp.name "b", Comp.up, Comp.up]⟩ rfl (rootX.push "d")
    (by simp [CompactPathTree.iter, decodeSteps])

end CPT
